import Mathlib

/-!
Verification development for the DoggOSFuzzy fuzzy-inference engine.

The Python sources are shallowly embedded over exact rational arithmetic:
`numpy` float arrays become functions `Fin n → ℚ` (or `List ℚ` where the
code treats them as sequences), the float literal `1e-10` becomes the
rational `1 / 10 ^ 10`, `np.finfo(float).eps` becomes `1 / 2 ^ 52`, and
fallible code paths (indexing errors, the unbounded Karnik-Mendel loop)
return `Option` values, with the loop driven by explicit fuel.
-/

/-- Additive bias `1e-10` that the source adds to weight arrays
(`thetas`, the reweighted Karnik-Mendel arrays, `weighted_average`). -/
def eps_bias : ℚ := 1 / 10 ^ 10

/-- Model of `np.finfo(float).eps`, the convergence tolerance of the
Karnik-Mendel fixed-point loop in `__find_y`: `2 ^ (-52)`. -/
def machine_eps : ℚ := 1 / 2 ^ 52

/-- Model of `np.average(x, weights=w)`: the `w`-weighted average
`Σ w i * x i / Σ w i` of the values of `x`. -/
def np_average {n : ℕ} (x w : Fin n → ℚ) : ℚ :=
  (∑ i, w i * x i) / (∑ i, w i)

/-- Embedding of `__membership_func_union(mfs)` from
`doggos/inference/defuzzification_algorithms.py`: `np.max` along axis 0 of
the stacked membership arrays, i.e. the pointwise maximum of the list.
`numpy` rejects an empty stack; the claims only use nonempty lists, and the
empty case here returns the zero function (never relied upon). -/
def membership_func_union {n : ℕ} (mfs : List (Fin n → ℚ)) : Fin n → ℚ :=
  match mfs with
  | [] => fun _ => 0
  | m :: rest => fun i => rest.foldl (fun acc f => max acc (f i)) (m i)

/-- Embedding of `center_of_gravity(domain, membership_functions)`:
`np.average(domain, weights=union)`. -/
def center_of_gravity {n : ℕ} (domain : Fin n → ℚ)
    (membership_functions : List (Fin n → ℚ)) : ℚ :=
  np_average domain (membership_func_union membership_functions)

/-- Embedding of `__find_k(c, domain)`: `np.where(domain <= c)[0][-1]`,
the last (hence largest) index whose domain value is `≤ c`. The `[-1]`
indexing raises `IndexError` on an empty index list, modelled by `none`. -/
def find_k {n : ℕ} (c : ℚ) (domain : Fin n → ℚ) : Option (Fin n) :=
  ((List.finRange n).filter (fun i => decide (domain i ≤ c))).getLast?

/-- Weight array assembled inside `__find_c_minute`:
`weights[:(k+1)] = under_k_mf[:(k+1)]; weights[(k+1):] = over_k_mf[(k+1):];
weights += 1e-10`. -/
def km_weights {n : ℕ} (under_k_mf over_k_mf : Fin n → ℚ) (k : Fin n) :
    Fin n → ℚ :=
  fun i => (if i ≤ k then under_k_mf i else over_k_mf i) + eps_bias

/-- Embedding of `__find_c_minute(c, under_k_mf, over_k_mf, domain)`:
find the switch index, assemble the biased weights, and return the
weighted average of the domain. -/
def find_c_minute {n : ℕ} (c : ℚ) (under_k_mf over_k_mf domain : Fin n → ℚ) :
    Option ℚ :=
  (find_k c domain).map
    (fun k => np_average domain (km_weights under_k_mf over_k_mf k))

/-- Loop body of `__find_y`: starting from the current candidate `c_prim`,
recompute `c_minute` and stop as soon as `|c_minute - c_prim|` is within
machine epsilon, otherwise continue from `c_minute`. The source loop has no
iteration cap; the `fuel` argument is a modelling artifact making the
recursion well-founded, with `none` on exhaustion. -/
def find_y_loop {n : ℕ} (under_k_mf over_k_mf domain : Fin n → ℚ) :
    ℕ → ℚ → Option ℚ
  | 0, _ => none
  | fuel + 1, c_prim =>
    match find_c_minute c_prim under_k_mf over_k_mf domain with
    | none => none
    | some c_minute =>
      if |c_minute - c_prim| ≤ machine_eps then some c_minute
      else find_y_loop under_k_mf over_k_mf domain fuel c_minute

/-- Embedding of `__find_y(partial_find_c_minute, domain, thetas)`:
initialize the candidate with the `thetas`-weighted average of the domain
and iterate `__find_c_minute` to convergence. -/
def find_y {n : ℕ} (fuel : ℕ) (under_k_mf over_k_mf domain thetas : Fin n → ℚ) :
    Option ℚ :=
  find_y_loop under_k_mf over_k_mf domain fuel (np_average domain thetas)

/-- Embedding of `karnik_mendel(lmfs, umfs, domain)`: build the lower and
upper membership unions, form `thetas = (lower + upper)/2 + 1e-10`, compute
`y_l` (under = upper cut, over = lower cut) and `y_r` (roles swapped), and
return their midpoint. -/
def karnik_mendel {n : ℕ} (fuel : ℕ) (lmfs umfs : List (Fin n → ℚ))
    (domain : Fin n → ℚ) : Option ℚ :=
  let lower_cut := membership_func_union lmfs
  let upper_cut := membership_func_union umfs
  let thetas := fun i => (lower_cut i + upper_cut i) / 2 + eps_bias
  match find_y fuel upper_cut lower_cut domain thetas,
        find_y fuel lower_cut upper_cut domain thetas with
  | some y_l, some y_r => some ((y_l + y_r) / 2)
  | _, _ => none

/-- Embedding of `weighted_average(firings, outputs)`:
`np.average(outputs, weights=firings + 1e-10)`. -/
def weighted_average {n : ℕ} (firings outputs : Fin n → ℚ) : ℚ :=
  np_average outputs (fun i => firings i + eps_bias)

/-- Linear interpolation step of `calculate_membership`: vertical distance
times horizontal proportion, offset by the previous point's value. -/
def interpolate (x : ℚ) (p q : ℚ × ℚ) : ℚ :=
  (q.2 - p.2) * ((x - p.1) / (q.1 - p.1)) + p.2

/-- Scan of the `for i in range(1, len(outputs_of_rules))` loop in
`calculate_membership`: `p` is the previous point; stop at the first point
whose abscissa is `≥ x` and interpolate, returning `0` if none is found. -/
def bracket_scan (x : ℚ) (p : ℚ × ℚ) : List (ℚ × ℚ) → ℚ
  | [] => 0
  | q :: rest => if x ≤ q.1 then interpolate x p q else bracket_scan x q rest

/-- Embedding of `calculate_membership(x, outputs_of_rules)`: a single
point answers its value exactly at its abscissa; with more points, if
`x ≥` the first abscissa, interpolate at the first bracketing pair; in all
remaining cases return `0`. -/
def calculate_membership (x : ℚ) (outputs_of_rules : List (ℚ × ℚ)) : ℚ :=
  match outputs_of_rules with
  | [] => 0
  | [p] => if x = p.1 then p.2 else 0
  | p :: rest => if p.1 ≤ x then bracket_scan x p rest else 0

/-- Model of `np.arange(start, stop, step)` for a positive rational step:
the points `start + i * step` for `i < ⌈(stop - start) / step⌉`. -/
def np_arange (start stop step : ℚ) : List ℚ :=
  (List.range (Int.ceil ((stop - start) / step)).toNat).map
    (fun i : ℕ => start + (i : ℚ) * step)

/-- Embedding of `takagi_sugeno_karnik_mendel(firings, outputs, step)`.
Rows pair each output with its (lower, upper) firing; they are sorted by
output (`np.argsort` on column 0), the domain is the arange between the
step-grid floors of the extreme outputs, the lower/upper membership arrays
are interpolated pointwise from the sorted rows, and `karnik_mendel` is
applied. An empty row list makes `outputs_of_rules[0]` raise, modelled by
`none`. -/
def takagi_sugeno_karnik_mendel (fuel : ℕ) (firings : List (ℚ × ℚ))
    (outputs : List ℚ) (step : ℚ) : Option ℚ :=
  let outputs_of_rules :=
    (outputs.zip firings).mergeSort (fun a b => decide (a.1 ≤ b.1))
  match outputs_of_rules with
  | [] => none
  | first :: rest =>
    let lastRow := (first :: rest).getLast (List.cons_ne_nil first rest)
    let domain := np_arange ((Int.floor (first.1 / step) : ℚ) * step)
      ((Int.floor (lastRow.1 / step + 1) : ℚ) * step) step
    let lmf : Fin domain.length → ℚ := fun i =>
      calculate_membership (domain.get i)
        ((first :: rest).map (fun r => (r.1, r.2.1)))
    let umf : Fin domain.length → ℚ := fun i =>
      calculate_membership (domain.get i)
        ((first :: rest).map (fun r => (r.1, r.2.2)))
    karnik_mendel fuel [lmf] [umf] (fun i => domain.get i)

/-- Model of a rule as seen by `TakagiSugenoInferenceSystem.infer`:
its flattened consequent function parameters (`function_parameters.values()`,
used for the cache key), its consequent output on a sample's measures, and
its antecedent firing on a sample's features. `F` is the type of a single
sample's features, `D` the type of a firing degree. -/
structure TSRule (F D : Type) where
  function_parameters : List ℚ
  consequent_output : List ℚ → ℚ
  antecedent_fire : F → D

/-- Embedding of `TakagiSugenoInferenceSystem.__get_input_tuple`: the
sample's measured values (in mapping order) followed by every rule's
consequent parameters flattened in rule-base order. -/
def get_input_tuple {F D : Type} (rule_base : List (TSRule F D))
    (single_measures : List ℚ) : List ℚ :=
  single_measures ++ (rule_base.map (fun r => r.function_parameters)).flatten

/-- Lookup in the memoization cache, modelled as an association list with
the most recent insertion in front (a Python dict write either adds a key
or overwrites it; shadowing by the front entry observes the same thing). -/
def cache_lookup {V : Type} (cache : List (List ℚ × V)) (key : List ℚ) :
    Option V :=
  match cache with
  | [] => none
  | (k, v) :: rest => if k = key then some v else cache_lookup rest key

/-- Embedding of the per-sample body of `TakagiSugenoInferenceSystem.infer`
(lines 85-102): build the input tuple, return the cached conclusion on a
hit; otherwise evaluate every rule's consequent output and antecedent
firing, sort the pairs by output ascending (`np.argsort(outputs)` applied
to both arrays), call the defuzzification method on (firings, outputs), and
store the conclusion. The cache is threaded explicitly: in the source
`__cache = {}` is a class attribute of `TakagiSugenoInferenceSystem`, so it
is a single dict shared by every instance. -/
def infer_single {F D : Type} (defuzzification_method : List D → List ℚ → ℚ)
    (rule_base : List (TSRule F D)) (cache : List (List ℚ × ℚ))
    (single_features : F) (single_measures : List ℚ) :
    ℚ × List (List ℚ × ℚ) :=
  let input_tuple := get_input_tuple rule_base single_measures
  match cache_lookup cache input_tuple with
  | some v => (v, cache)
  | none =>
    let pairs := rule_base.map
      (fun r => (r.consequent_output single_measures,
                 r.antecedent_fire single_features))
    let sorted_pairs := pairs.mergeSort (fun a b => decide (a.1 ≤ b.1))
    let conclusion := defuzzification_method (sorted_pairs.map Prod.snd)
      (sorted_pairs.map Prod.fst)
    (conclusion, (input_tuple, conclusion) :: cache)

/-- Embedding of the sample loop of `TakagiSugenoInferenceSystem.infer`:
process the samples in order, threading the (class-level) cache, and
collect the conclusions. -/
def infer {F D : Type} (defuzzification_method : List D → List ℚ → ℚ)
    (rule_base : List (TSRule F D)) (cache : List (List ℚ × ℚ)) :
    List (F × List ℚ) → List ℚ × List (List ℚ × ℚ)
  | [] => ([], cache)
  | s :: rest =>
    let step := infer_single defuzzification_method rule_base cache s.1 s.2
    let remaining := infer defuzzification_method rule_base step.2 rest
    (step.1 :: remaining.1, remaining.2)

/-- Python value shapes that `MamdaniConsequent.output` discriminates on:
a float, a tuple of floats, or anything else. -/
inductive PyVal where
  | float (v : ℚ)
  | tup (vs : List ℚ)
  | other
deriving DecidableEq

/-- Shape of `clause.fuzzy_set` as used by `MamdaniConsequent`: a single
membership array (Type-1) or a (lower, upper) pair (Interval Type-2). -/
inductive ClauseFS (n : ℕ) where
  | single (mf : Fin n → ℚ)
  | pair (lmf umf : Fin n → ℚ)

/-- Result of `MamdaniConsequent.output`: a cut fuzzy set, the implicit
`None` of a fall-through return, or a raised exception. `shape_mismatch`
marks the one path (Type-1 clause with a 2-tuple firing) whose behavior is
a numpy shape accident outside every claim; it is never asserted equal to
anything. -/
inductive MamdaniResult (n : ℕ) where
  | cut (fs : ClauseFS n)
  | pyNone
  | exn
  | shape_mismatch

/-- Model of `np.minimum(fuzzy_set, scalar)`: the elementwise minimum with
a scalar, on either clause shape. -/
def np_minimum_fs {n : ℕ} : ClauseFS n → ℚ → ClauseFS n
  | ClauseFS.single mf, v =>
    ClauseFS.single (fun i => min (mf i) v)
  | ClauseFS.pair lmf umf, v =>
    ClauseFS.pair (fun i => min (lmf i) v) (fun i => min (umf i) v)

/-- Embedding of `MamdaniConsequent.__t1_cut(rule_firing)`:
`np.minimum(self.__clause.fuzzy_set, rule_firing)`. -/
def t1_cut {n : ℕ} (fuzzy_set : ClauseFS n) (rule_firing : ℚ) : ClauseFS n :=
  np_minimum_fs fuzzy_set rule_firing

/-- Embedding of `MamdaniConsequent.__it2_cut(rule_firing)`: cut the lower
membership array to the first tuple component and the upper one to the
second. Indexing `fuzzy_set[0]`/`fuzzy_set[1]` on a single-array clause is
the unmodelled numpy shape accident. -/
def it2_cut {n : ℕ} : ClauseFS n → ℚ → ℚ → MamdaniResult n
  | ClauseFS.pair lmf umf, l, u =>
    MamdaniResult.cut (ClauseFS.pair (fun i => min (lmf i) l)
      (fun i => min (umf i) u))
  | ClauseFS.single _, _, _ => MamdaniResult.shape_mismatch

/-- Embedding of `MamdaniConsequent.output(rule_firing)` (lines 42-58): a
float firing takes the Type-1 cut; a tuple firing takes the Interval
Type-2 cut only when its length is 2, and otherwise falls off the end of
the method, returning Python `None`; any other value raises. -/
def mamdani_output {n : ℕ} (fuzzy_set : ClauseFS n) (rule_firing : PyVal) :
    MamdaniResult n :=
  match rule_firing with
  | PyVal.float v => MamdaniResult.cut (t1_cut fuzzy_set v)
  | PyVal.tup vs =>
    match vs with
    | [l, u] => it2_cut fuzzy_set l u
    | _ => MamdaniResult.pyNone
  | PyVal.other => MamdaniResult.exn

/-- Rendering of the spec's union: the elementwise maximum over the listed
membership arrays (largest listed value at each point). Written for the C1
refinement from the spec's words, to be compared with
`membership_func_union` from the source. -/
def spec_union {n : ℕ} (mfs : List (Fin n → ℚ)) : Fin n → ℚ :=
  fun i => ((mfs.map (fun m => m i)).max?).getD 0

/-- Rendering of the spec's switch index: the largest domain index `k` with
`domain[k] ≤ c`. Written from the spec's words for the C1 refinement: every
index is visited in order and the last satisfying one is kept. -/
def spec_find_k {n : ℕ} (c : ℚ) (domain : Fin n → ℚ) : Option (Fin n) :=
  (List.finRange n).foldl
    (fun acc i => if domain i ≤ c then some i else acc) none

/-- Rendering of the spec's weighted average, written with the factors in
the spec's order for the C1 refinement. -/
def spec_wavg {n : ℕ} (x w : Fin n → ℚ) : ℚ :=
  (∑ i, x i * w i) / (∑ i, w i)

/-- Rendering of the spec's reweighting: indices `0..k` inclusive use the
"under" array, indices `k+1..end` the "over" array, and the `1e-10` bias is
added to all weights. Written for the C1 refinement. -/
def spec_reweight {n : ℕ} (under over : Fin n → ℚ) (k : Fin n) : Fin n → ℚ :=
  fun i => (if i.val ≤ k.val then under i else over i) + 1 / 10 ^ 10

/-- Rendering of one recompute step of the spec's iteration for the C1
refinement: switch index, reweight, weighted average. -/
def spec_recompute {n : ℕ} (c : ℚ) (under over domain : Fin n → ℚ) :
    Option ℚ :=
  (spec_find_k c domain).map (fun k => spec_wavg domain (spec_reweight under over k))

/-- Rendering of the spec's iteration to a fixed point for the C1
refinement: repeat replacing the candidate until two consecutive candidates
are within machine epsilon for 64-bit floats. -/
def spec_iterate {n : ℕ} (under over domain : Fin n → ℚ) :
    ℕ → ℚ → Option ℚ
  | 0, _ => none
  | fuel + 1, c =>
    match spec_recompute c under over domain with
    | none => none
    | some c2 =>
      if |c2 - c| ≤ 1 / 2 ^ 52 then some c2
      else spec_iterate under over domain fuel c2

/-- Rendering of the spec's whole Karnik-Mendel description for the C1
refinement: `thetas = (union(lmfs) + union(umfs))/2 + 1e-10`, each side
starts from the thetas-weighted average of the domain and iterates; for
`y_l` under = upper-membership union and over = lower-membership union, for
`y_r` they are swapped; the result is `(y_l + y_r)/2`. -/
def spec_karnik_mendel {n : ℕ} (fuel : ℕ) (lmfs umfs : List (Fin n → ℚ))
    (domain : Fin n → ℚ) : Option ℚ :=
  let lower := spec_union lmfs
  let upper := spec_union umfs
  let thetas := fun i => (lower i + upper i) / 2 + 1 / 10 ^ 10
  match spec_iterate upper lower domain fuel (spec_wavg domain thetas),
        spec_iterate lower upper domain fuel (spec_wavg domain thetas) with
  | some y_l, some y_r => some ((y_l + y_r) / 2)
  | _, _ => none

/-- Switch-index successor map of the Karnik-Mendel iteration: from the
switch index `k`, recompute the candidate average with the `k`-reweighted
biased weights and take its switch index. Proof infrastructure for the
termination and safety claims; the `⟨0, hn⟩` default is never reached when
the domain is monotone and the raw weight arrays are nonnegative. -/
def km_next {n : ℕ} (hn : 0 < n) (under over x : Fin n → ℚ) (k : Fin n) :
    Fin n :=
  (find_k (np_average x (km_weights under over k)) x).getD ⟨0, hn⟩

/-- Start of the discretized Takagi-Sugeno Karnik-Mendel domain, written
from the spec's words for the C4 refinement: the minimum sorted output
floored at resolution `step`. -/
def tskm_lo (first : ℚ × ℚ × ℚ) (step : ℚ) : ℚ :=
  ((Int.floor (first.1 / step) : ℤ) : ℚ) * step

/-- End of the discretized Takagi-Sugeno Karnik-Mendel domain, written
from the spec's words for the C4 refinement: one step beyond the maximum
sorted output floored at resolution `step`. -/
def tskm_hi (lastRow : ℚ × ℚ × ℚ) (step : ℚ) : ℚ :=
  ((Int.floor (lastRow.1 / step + 1) : ℤ) : ℚ) * step

theorem eps_bias_pos : (0 : ℚ) < eps_bias := by norm_num [eps_bias]

theorem machine_eps_nonneg : (0 : ℚ) ≤ machine_eps := by norm_num [machine_eps]

/-- C8: `weighted_average(firings, outputs)` is the firing-weighted average
of the outputs with the `1e-10` additive constant applied to every firing
weight, and for every nonempty outputs array with uniform nonzero
(positive) firings it equals the arithmetic mean of the outputs. -/
theorem weighted_average_is_biased_mean {n : ℕ} (firings outputs : Fin n → ℚ)
    (c : ℚ) (hn : 0 < n) (hc : 0 < c) (huni : ∀ i, firings i = c) :
    weighted_average firings outputs =
      (∑ i, (firings i + eps_bias) * outputs i) /
        (∑ i, (firings i + eps_bias)) ∧
    weighted_average firings outputs = (∑ i, outputs i) / n := by
  have hcv : (0 : ℚ) < c + eps_bias := by have := eps_bias_pos; linarith
  constructor
  · rfl
  · unfold weighted_average np_average
    have h1 : ∀ i : Fin n, (firings i + eps_bias) * outputs i =
        (c + eps_bias) * outputs i := by
      intro i; rw [huni i]
    rw [Finset.sum_congr rfl (fun i _ => h1 i), ← Finset.mul_sum]
    have h2 : ∑ i : Fin n, (firings i + eps_bias) = (n : ℚ) * (c + eps_bias) := by
      rw [Finset.sum_congr rfl (fun (i : Fin n) _ => by rw [huni i])]
      rw [Finset.sum_const, Finset.card_univ, Fintype.card_fin, nsmul_eq_mul]
    rw [h2, mul_comm (n : ℚ) (c + eps_bias),
      mul_div_mul_left _ _ (ne_of_gt hcv)]

/-- Witness for C8: uniform firings (1,1) on outputs (3,5) average to 4. -/
theorem weighted_average_is_biased_mean_witness :
    weighted_average (fun _ : Fin 2 => (1 : ℚ)) ![3, 5] = 4 := by
  have h := (weighted_average_is_biased_mean (fun _ : Fin 2 => (1 : ℚ))
    ![3, 5] 1 (by norm_num) (by norm_num) (fun i => rfl)).2
  rw [h, Fin.sum_univ_two]
  norm_num [Matrix.cons_val_zero, Matrix.cons_val_one, Matrix.head_cons]

/-- C7 (the code slips on one shape): a float firing takes the Type-1 cut,
a 2-tuple firing the Interval Type-2 pair of cuts, and a non-float
non-tuple raises, but a tuple whose length is not 2 falls off the end of
`MamdaniConsequent.output` and yields Python `None` instead of an error. -/
theorem mamdani_output_shape_contract :
    (∀ (n : ℕ) (mf : Fin n → ℚ) (v : ℚ),
      mamdani_output (ClauseFS.single mf) (PyVal.float v) =
        MamdaniResult.cut (ClauseFS.single (fun i => min (mf i) v))) ∧
    (∀ (n : ℕ) (lmf umf : Fin n → ℚ) (l u : ℚ),
      mamdani_output (ClauseFS.pair lmf umf) (PyVal.tup [l, u]) =
        MamdaniResult.cut (ClauseFS.pair (fun i => min (lmf i) l)
          (fun i => min (umf i) u))) ∧
    (∀ (n : ℕ) (lmf umf : Fin n → ℚ),
      mamdani_output (ClauseFS.pair lmf umf)
        (PyVal.tup [2 / 10, 1 / 2, 7 / 10]) = MamdaniResult.pyNone) ∧
    (∀ (n : ℕ) (lmf umf : Fin n → ℚ),
      mamdani_output (ClauseFS.pair lmf umf) PyVal.other =
        MamdaniResult.exn) ∧
    (MamdaniResult.pyNone (n := 1) ≠ MamdaniResult.exn) :=
  ⟨fun _ _ _ => rfl, fun _ _ _ _ _ => rfl, fun _ _ _ => rfl,
    fun _ _ _ => rfl, fun h => MamdaniResult.noConfusion h⟩

/-- Last element of a strictly increasing list: it is the element that
belongs to the list and dominates every member. -/
theorem getLast?_of_pairwise_lt {α : Type} [LinearOrder α] (l : List α)
    (a : α) (hp : l.Pairwise (· < ·)) :
    l.getLast? = some a ↔ a ∈ l ∧ ∀ b ∈ l, b ≤ a := by
  induction l with
  | nil => simp
  | cons h t ih =>
    obtain ⟨hh, ht⟩ := List.pairwise_cons.mp hp
    cases t with
    | nil =>
      rw [List.getLast?_singleton]
      constructor
      · intro he
        obtain rfl : h = a := Option.some_inj.mp he
        exact ⟨by simp, by simp⟩
      · rintro ⟨ha, -⟩
        obtain rfl : a = h := List.mem_singleton.mp ha
        rfl
    | cons h2 t2 =>
      rw [List.getLast?_cons_cons, ih ht]
      constructor
      · rintro ⟨ha, hb⟩
        refine ⟨List.mem_cons_of_mem _ ha, ?_⟩
        intro b hb2
        rcases List.mem_cons.mp hb2 with rfl | hbt
        · exact le_of_lt (hh a ha)
        · exact hb b hbt
      · rintro ⟨ha, hb⟩
        rcases List.mem_cons.mp ha with rfl | hat
        · exfalso
          have h1 : a < h2 := hh h2 (List.mem_cons_self _ _)
          have h2le : h2 ≤ a :=
            hb h2 (List.mem_cons_of_mem _ (List.mem_cons_self _ _))
          exact absurd h2le (not_le.mpr h1)
        · exact ⟨hat, fun b hbt => hb b (List.mem_cons_of_mem _ hbt)⟩

/-- Characterization of `__find_k`: it answers `k` exactly when `k`
satisfies `domain[k] ≤ c` and every index satisfying that bound lies at or
below `k` — i.e. `k` is the largest index with `domain[k] ≤ c`. -/
theorem find_k_eq_some_iff {n : ℕ} (c : ℚ) (x : Fin n → ℚ) (k : Fin n) :
    find_k c x = some k ↔ x k ≤ c ∧ ∀ j, x j ≤ c → j ≤ k := by
  unfold find_k
  rw [getLast?_of_pairwise_lt _ _
    ((List.pairwise_lt_finRange n).filter _)]
  simp only [List.mem_filter, List.mem_finRange, true_and,
    decide_eq_true_eq]

/-- Success of `__find_k`: as soon as `c` is at least the first domain
value, the filtered index list is nonempty, so the `[-1]` indexing cannot
raise and the answer is the largest index with `domain[k] ≤ c`. -/
theorem find_k_succeeds {n : ℕ} (c : ℚ) (x : Fin n → ℚ) (hn : 0 < n)
    (h0 : x ⟨0, hn⟩ ≤ c) :
    ∃ k, find_k c x = some k ∧ x k ≤ c ∧ ∀ j, x j ≤ c → j ≤ k := by
  have hmem : (⟨0, hn⟩ : Fin n) ∈
      (List.finRange n).filter (fun i => decide (x i ≤ c)) := by
    simp [List.mem_filter, h0]
  have hne := List.ne_nil_of_mem hmem
  obtain ⟨k, hk⟩ :=
    Option.isSome_iff_exists.mp (List.getLast?_isSome.mpr hne)
  exact ⟨k, hk, ((find_k_eq_some_iff c x k).mp hk).1,
    ((find_k_eq_some_iff c x k).mp hk).2⟩

/-- Lower bound for a positively weighted average: it dominates any common
lower bound of the averaged values. -/
theorem le_np_average {n : ℕ} (x w : Fin n → ℚ) (lo : ℚ) (hn : 0 < n)
    (hw : ∀ i, 0 < w i) (hx : ∀ i, lo ≤ x i) : lo ≤ np_average x w := by
  have : Nonempty (Fin n) := ⟨⟨0, hn⟩⟩
  have hS : 0 < ∑ i, w i := Finset.sum_pos (fun i _ => hw i) Finset.univ_nonempty
  rw [np_average, le_div_iff hS]
  have hrw : lo * ∑ i, w i = ∑ i, w i * lo := by rw [mul_comm, Finset.sum_mul]
  rw [hrw]
  exact Finset.sum_le_sum
    (fun i _ => mul_le_mul_of_nonneg_left (hx i) (le_of_lt (hw i)))

/-- Upper bound for a positively weighted average: it stays below any
common upper bound of the averaged values. -/
theorem np_average_le {n : ℕ} (x w : Fin n → ℚ) (hi : ℚ) (hn : 0 < n)
    (hw : ∀ i, 0 < w i) (hx : ∀ i, x i ≤ hi) : np_average x w ≤ hi := by
  have : Nonempty (Fin n) := ⟨⟨0, hn⟩⟩
  have hS : 0 < ∑ i, w i := Finset.sum_pos (fun i _ => hw i) Finset.univ_nonempty
  rw [np_average, div_le_iff hS]
  have hrw : hi * ∑ i, w i = ∑ i, w i * hi := by rw [mul_comm, Finset.sum_mul]
  rw [hrw]
  exact Finset.sum_le_sum
    (fun i _ => mul_le_mul_of_nonneg_left (hx i) (le_of_lt (hw i)))

/-- Positivity of the assembled Karnik-Mendel weights: the `+ 1e-10` bias
makes every entry strictly positive whenever the raw arrays are
nonnegative. -/
theorem km_weights_pos {n : ℕ} (under over : Fin n → ℚ) (k : Fin n)
    (hu : ∀ i, 0 ≤ under i) (ho : ∀ i, 0 ≤ over i) :
    ∀ i, 0 < km_weights under over k i := by
  intro i
  unfold km_weights
  by_cases h : i ≤ k
  · rw [if_pos h]; linarith [hu i, eps_bias_pos]
  · rw [if_neg h]; linarith [ho i, eps_bias_pos]

/-- C10: inside `karnik_mendel`, the `np.where(domain <= c)[0][-1]`
indexing of `__find_k` never fails: with a nonempty ascending domain and
the strictly positive biased weights, the initial candidate is at least
`domain[0]`, every candidate with that property gives `__find_k` a
nonempty index set (so `__find_c_minute` returns a value), and the
recomputed candidate again dominates `domain[0]`. -/
theorem km_find_k_never_fails {n : ℕ} (under over x thetas : Fin n → ℚ)
    (hn : 0 < n) (hx : Monotone x) (hu : ∀ i, 0 ≤ under i)
    (ho : ∀ i, 0 ≤ over i) (hth : ∀ i, 0 < thetas i) :
    x ⟨0, hn⟩ ≤ np_average x thetas ∧
    ∀ c, x ⟨0, hn⟩ ≤ c →
      ∃ k, find_k c x = some k ∧
        find_c_minute c under over x =
          some (np_average x (km_weights under over k)) ∧
        x ⟨0, hn⟩ ≤ np_average x (km_weights under over k) := by
  have hx0 : ∀ i, x ⟨0, hn⟩ ≤ x i :=
    fun i => hx (by simp [Fin.le_def])
  constructor
  · exact le_np_average x thetas _ hn hth hx0
  · intro c hc
    obtain ⟨k, hk, -, -⟩ := find_k_succeeds c x hn hc
    refine ⟨k, hk, ?_, le_np_average x _ _ hn
      (km_weights_pos under over k hu ho) hx0⟩
    unfold find_c_minute
    rw [hk]
    rfl

/-- Witness for C10 on the one-point domain `{0}` with unit raw weights:
the candidate `0` succeeds. -/
theorem km_find_k_never_fails_witness :
    ∃ k, find_k (0 : ℚ) (fun _ : Fin 1 => (0 : ℚ)) = some k ∧
      find_c_minute 0 (fun _ => 1) (fun _ => 1) (fun _ : Fin 1 => (0 : ℚ)) =
        some (np_average (fun _ : Fin 1 => (0 : ℚ))
          (km_weights (fun _ => 1) (fun _ => 1) k)) ∧
      (fun _ : Fin 1 => (0 : ℚ)) ⟨0, one_pos⟩ ≤
        np_average (fun _ : Fin 1 => (0 : ℚ))
          (km_weights (fun _ => 1) (fun _ => 1) k) :=
  (km_find_k_never_fails (fun _ => 1) (fun _ => 1) (fun _ => 0) (fun _ => 1)
    one_pos (by decide) (fun _ => by norm_num) (fun _ => by norm_num)
    (fun _ => by norm_num)).2 0 (le_refl 0)

/-- Rearrangement of a weighted sum of shifted values. -/
theorem sum_weights_shift {n : ℕ} (w x : Fin n → ℚ) (t : ℚ) :
    ∑ i, w i * (x i - t) = (∑ i, w i * x i) - (∑ i, w i) * t := by
  simp only [mul_sub]
  rw [Finset.sum_sub_distrib]
  congr 1
  rw [Finset.sum_mul]

/-- Key switching inequality of the Karnik-Mendel iteration. With a
monotone domain and nonnegative raw weight arrays, it is impossible that a
switch index `p ∈ [a, b]` recomputes to an average at or above `domain[b]`
while a switch index `q ∈ [a, b]` recomputes to an average strictly below
`domain[a+1]`: outside `(a, b]` the two assembled weight vectors agree, the
disagreeing middle block has the favourable sign against either threshold,
and the two average bounds contradict each other. -/
theorem km_no_crossing {n : ℕ} (under over x : Fin n → ℚ) (hx : Monotone x)
    (hu : ∀ i, 0 ≤ under i) (ho : ∀ i, 0 ≤ over i)
    (a b p q : Fin n) (hab : a < b) (hap : a ≤ p) (hpb : p ≤ b)
    (haq : a ≤ q) (hqb : q ≤ b) (ha1 : a.val + 1 < n)
    (h1 : x b ≤ np_average x (km_weights under over p))
    (h2 : np_average x (km_weights under over q) < x ⟨a.val + 1, ha1⟩) :
    False := by
  have : Nonempty (Fin n) := ⟨a⟩
  set a2 : Fin n := ⟨a.val + 1, ha1⟩ with ha2
  have hvab : a.val < b.val := hab
  have ha2b : a2 ≤ b := by
    rw [Fin.le_def]
    simpa [ha2] using hvab
  have hxa2b : x a2 ≤ x b := hx ha2b
  have hWp := km_weights_pos under over p hu ho
  have hWq := km_weights_pos under over q hu ho
  have hSp : 0 < ∑ i, km_weights under over p i :=
    Finset.sum_pos (fun i _ => hWp i) Finset.univ_nonempty
  have hSq : 0 < ∑ i, km_weights under over q i :=
    Finset.sum_pos (fun i _ => hWq i) Finset.univ_nonempty
  unfold np_average at h1 h2
  have hb1 := (le_div_iff hSp).mp h1
  have hb2 := (div_lt_iff hSq).mp h2
  have hc1 : 0 ≤ ∑ i, km_weights under over p i * (x i - x b) := by
    rw [sum_weights_shift]
    nlinarith [hb1]
  have hc2 : ∑ i, km_weights under over q i * (x i - x a2) < 0 := by
    rw [sum_weights_shift]
    nlinarith [hb2]
  set g : Fin n → ℚ := fun i =>
    if i ≤ a then (under i + eps_bias) * (x i - x a2)
    else if b < i then (over i + eps_bias) * (x i - x b)
    else 0 with hg
  have step1 : ∑ i, km_weights under over p i * (x i - x b) ≤ ∑ i, g i := by
    apply Finset.sum_le_sum
    intro i _
    by_cases hia : i ≤ a
    · have hip : i ≤ p := le_trans hia hap
      simp only [hg, if_pos hia]
      unfold km_weights
      rw [if_pos hip]
      have hnn : 0 ≤ under i + eps_bias := by linarith [hu i, eps_bias_pos]
      exact mul_le_mul_of_nonneg_left (by linarith [hxa2b]) hnn
    · by_cases hbi : b < i
      · have hnp : ¬ i ≤ p := not_le.mpr (lt_of_le_of_lt hpb hbi)
        simp only [hg, if_neg hia, if_pos hbi]
        unfold km_weights
        rw [if_neg hnp]
      · simp only [hg, if_neg hia, if_neg hbi]
        have hxib : x i ≤ x b := hx (not_lt.mp hbi)
        nlinarith [hWp i]
  have step2 : ∑ i, g i ≤ ∑ i, km_weights under over q i * (x i - x a2) := by
    apply Finset.sum_le_sum
    intro i _
    by_cases hia : i ≤ a
    · have hiq : i ≤ q := le_trans hia haq
      simp only [hg, if_pos hia]
      unfold km_weights
      rw [if_pos hiq]
    · by_cases hbi : b < i
      · have hnq : ¬ i ≤ q := not_le.mpr (lt_of_le_of_lt hqb hbi)
        simp only [hg, if_neg hia, if_pos hbi]
        unfold km_weights
        rw [if_neg hnq]
        have hnn : 0 ≤ over i + eps_bias := by linarith [ho i, eps_bias_pos]
        exact mul_le_mul_of_nonneg_left (by linarith [hxa2b]) hnn
      · simp only [hg, if_neg hia, if_neg hbi]
        have hai : a.val < i.val := not_le.mp hia
        have hxa2i : x a2 ≤ x i := by
          apply hx
          rw [Fin.le_def]
          simpa [ha2] using hai
        nlinarith [hWq i]
  linarith [hc1, hc2, step1, step2]

/-- Defining property of `km_next`: with a nonempty monotone domain and
nonnegative raw weight arrays it is the (successful) `__find_k` answer on
the recomputed candidate: the largest index whose domain value is below
the recomputed average. -/
theorem km_next_spec {n : ℕ} (hn : 0 < n) (under over x : Fin n → ℚ)
    (hx : Monotone x) (hu : ∀ i, 0 ≤ under i) (ho : ∀ i, 0 ≤ over i)
    (k : Fin n) :
    find_k (np_average x (km_weights under over k)) x =
      some (km_next hn under over x k) ∧
    x (km_next hn under over x k) ≤ np_average x (km_weights under over k) ∧
    ∀ j, x j ≤ np_average x (km_weights under over k) →
      j ≤ km_next hn under over x k := by
  have hx0 : ∀ i, x ⟨0, hn⟩ ≤ x i := fun i => hx (by simp [Fin.le_def])
  have hc : x ⟨0, hn⟩ ≤ np_average x (km_weights under over k) :=
    le_np_average x _ _ hn (km_weights_pos under over k hu ho) hx0
  obtain ⟨k2, hk2, hle, hmax⟩ := find_k_succeeds _ x hn hc
  have he : km_next hn under over x k = k2 := by
    unfold km_next
    rw [hk2]
    rfl
  rw [he]
  exact ⟨hk2, hle, hmax⟩

/-- Structure of a periodic orbit in a linear order: a periodic point is
either fixed, or its orbit has a least element `a` and a greatest element
`b > a`, both of which are images under `g` of orbit members (hence of
points inside `[a, b]`). -/
theorem cycle_min_max {α : Type} [LinearOrder α] (g : α → α) (y : α)
    (m : ℕ) (hm : 1 ≤ m) (hper : g^[m] y = y) :
    g y = y ∨ ∃ a b p q : α, a < b ∧ a ≤ p ∧ p ≤ b ∧ a ≤ q ∧ q ≤ b ∧
      g p = b ∧ g q = a := by
  classical
  set O : Finset α := (Finset.range m).image (fun i => g^[i] y) with hO
  have hyO : y ∈ O :=
    Finset.mem_image.mpr ⟨0, Finset.mem_range.mpr hm, rfl⟩
  have hONe : O.Nonempty := ⟨y, hyO⟩
  have hgO : ∀ z ∈ O, g z ∈ O := by
    intro z hz
    obtain ⟨i, hi, rfl⟩ := Finset.mem_image.mp hz
    rw [Finset.mem_range] at hi
    rcases Nat.lt_or_ge (i + 1) m with h | h
    · exact Finset.mem_image.mpr ⟨i + 1, Finset.mem_range.mpr h,
        Function.iterate_succ_apply' g i y⟩
    · have him : i + 1 = m := le_antisymm (Nat.succ_le_of_lt hi) h
      have hcyc : g (g^[i] y) = y := by
        rw [← Function.iterate_succ_apply' g i y, Nat.succ_eq_add_one, him,
          hper]
      exact Finset.mem_image.mpr ⟨0, Finset.mem_range.mpr hm, hcyc.symm⟩
  have hpred : ∀ z ∈ O, ∃ w ∈ O, g w = z := by
    intro z hz
    obtain ⟨i, hi, rfl⟩ := Finset.mem_image.mp hz
    rw [Finset.mem_range] at hi
    cases i with
    | zero =>
      refine ⟨g^[m - 1] y,
        Finset.mem_image.mpr ⟨m - 1, Finset.mem_range.mpr (by omega), rfl⟩, ?_⟩
      have hm1 : m - 1 + 1 = m := by omega
      calc g (g^[m - 1] y) = g^[m - 1 + 1] y :=
            (Function.iterate_succ_apply' g (m - 1) y).symm
        _ = g^[m] y := by rw [hm1]
        _ = y := hper
    | succ i2 =>
      exact ⟨g^[i2] y,
        Finset.mem_image.mpr ⟨i2, Finset.mem_range.mpr (by omega), rfl⟩,
        (Function.iterate_succ_apply' g i2 y).symm⟩
  by_cases hab : O.min' hONe = O.max' hONe
  · left
    have hz : ∀ z ∈ O, z = O.min' hONe := by
      intro z hz
      refine le_antisymm ?_ (Finset.min'_le _ z hz)
      rw [hab]
      exact Finset.le_max' _ z hz
    rw [hz _ (hgO y hyO), hz y hyO]
  · right
    obtain ⟨p, hpO, hgp⟩ := hpred _ (Finset.max'_mem _ hONe)
    obtain ⟨q, hqO, hgq⟩ := hpred _ (Finset.min'_mem _ hONe)
    exact ⟨O.min' hONe, O.max' hONe, p, q,
      lt_of_le_of_ne (Finset.min'_le _ _ (Finset.max'_mem _ hONe)) hab,
      Finset.min'_le _ p hpO, Finset.le_max' _ p hpO,
      Finset.min'_le _ q hqO, Finset.le_max' _ q hqO, hgp, hgq⟩

/-- No-cycle property of the Karnik-Mendel switch-index iteration: any
periodic point of `km_next` is a fixed point. A nontrivial cycle would
have a least index `a` and a greatest index `b > a`, both images of cycle
members in `[a, b]`, which `km_no_crossing` rules out. -/
theorem km_next_no_cycle {n : ℕ} (hn : 0 < n) (under over x : Fin n → ℚ)
    (hx : Monotone x) (hu : ∀ i, 0 ≤ under i) (ho : ∀ i, 0 ≤ over i)
    (y : Fin n) (m : ℕ) (hm : 1 ≤ m)
    (hper : (km_next hn under over x)^[m] y = y) :
    km_next hn under over x y = y := by
  rcases cycle_min_max (km_next hn under over x) y m hm hper with h | h
  · exact h
  · exfalso
    obtain ⟨a, b, p, q, hab, hap, hpb, haq, hqb, hgp, hgq⟩ := h
    have hvab : a.val < b.val := hab
    have ha1 : a.val + 1 < n := by
      have hbn := b.isLt
      omega
    obtain ⟨-, hle, -⟩ := km_next_spec hn under over x hx hu ho p
    rw [hgp] at hle
    obtain ⟨-, -, hmax⟩ := km_next_spec hn under over x hx hu ho q
    have h2 : np_average x (km_weights under over q) < x ⟨a.val + 1, ha1⟩ := by
      by_contra hcon
      push_neg at hcon
      have hja := hmax _ hcon
      rw [hgq] at hja
      have hlt : a < (⟨a.val + 1, ha1⟩ : Fin n) := by
        rw [Fin.lt_def]
        exact Nat.lt_succ_self a.val
      exact absurd hja (not_le.mpr hlt)
    exact km_no_crossing under over x hx hu ho a b p q hab hap hpb haq hqb
      ha1 hle h2

/-- The switch-index iteration reaches a fixed point within `n` steps:
among the first `n + 1` iterates two coincide by pigeonhole, the
intermediate point is periodic, and periodic points are fixed. -/
theorem km_next_reaches_fixed {n : ℕ} (hn : 0 < n) (under over x : Fin n → ℚ)
    (hx : Monotone x) (hu : ∀ i, 0 ≤ under i) (ho : ∀ i, 0 ≤ over i)
    (k0 : Fin n) :
    ∃ t, t < n ∧ (km_next hn under over x)^[t + 1] k0 =
      (km_next hn under over x)^[t] k0 := by
  obtain ⟨i, j, hij, hfij⟩ := Fintype.exists_ne_map_eq_of_card_lt
    (fun i : Fin (n + 1) => (km_next hn under over x)^[i.val] k0)
    (by simp)
  have key : ∀ a b : Fin (n + 1), a.val < b.val →
      (km_next hn under over x)^[a.val] k0 =
        (km_next hn under over x)^[b.val] k0 →
      ∃ t, t < n ∧ (km_next hn under over x)^[t + 1] k0 =
        (km_next hn under over x)^[t] k0 := by
    intro a b hab heq
    have hper : (km_next hn under over x)^[b.val - a.val]
        ((km_next hn under over x)^[a.val] k0) =
        (km_next hn under over x)^[a.val] k0 := by
      rw [← Function.iterate_add_apply]
      have hba : b.val - a.val + a.val = b.val := by omega
      rw [hba, ← heq]
    have hfix := km_next_no_cycle hn under over x hx hu ho _
      (b.val - a.val) (by omega) hper
    refine ⟨a.val, by omega, ?_⟩
    rw [Function.iterate_succ_apply']
    exact hfix
  rcases lt_or_gt_of_ne hij with h | h
  · exact key i j h hfij
  · exact key j i h hfij.symm

/-- One successful step of the `__find_y` loop. -/
theorem find_y_loop_step {n : ℕ} (under over x : Fin n → ℚ) (fuel : ℕ)
    (c c1 : ℚ) (hc : find_c_minute c under over x = some c1) :
    find_y_loop under over x (fuel + 1) c =
      if |c1 - c| ≤ machine_eps then some c1
      else find_y_loop under over x fuel c1 := by
  rw [find_y_loop, hc]

/-- One failing step of the `__find_y` loop. -/
theorem find_y_loop_none {n : ℕ} (under over x : Fin n → ℚ) (fuel : ℕ)
    (c : ℚ) (hc : find_c_minute c under over x = none) :
    find_y_loop under over x (fuel + 1) c = none := by
  rw [find_y_loop, hc]

/-- Once the switch-index trajectory of the current candidate stabilizes
after `t` steps, the `__find_y` loop returns a value within `t + 2`
evaluations of `__find_c_minute`. -/
theorem find_y_loop_succeeds {n : ℕ} (hn : 0 < n) (under over x : Fin n → ℚ)
    (hx : Monotone x) (hu : ∀ i, 0 ≤ under i) (ho : ∀ i, 0 ≤ over i) :
    ∀ (t : ℕ) (c : ℚ), x ⟨0, hn⟩ ≤ c →
      (km_next hn under over x)^[t + 1] ((find_k c x).getD ⟨0, hn⟩) =
        (km_next hn under over x)^[t] ((find_k c x).getD ⟨0, hn⟩) →
      ∃ v, find_y_loop under over x (t + 2) c = some v := by
  have hx0 : ∀ i, x ⟨0, hn⟩ ≤ x i := fun i => hx (by simp [Fin.le_def])
  intro t
  induction t with
  | zero =>
    intro c hc hfix
    obtain ⟨k, hk, -, -⟩ := find_k_succeeds c x hn hc
    have hkd : (find_k c x).getD ⟨0, hn⟩ = k := by rw [hk]; rfl
    rw [hkd, Function.iterate_one, Function.iterate_zero_apply] at hfix
    have hfc : find_c_minute c under over x =
        some (np_average x (km_weights under over k)) := by
      unfold find_c_minute
      rw [hk]
      rfl
    rw [find_y_loop_step under over x 1 c _ hfc]
    by_cases hif : |np_average x (km_weights under over k) - c| ≤ machine_eps
    · rw [if_pos hif]
      exact ⟨_, rfl⟩
    · rw [if_neg hif]
      have hc1 : x ⟨0, hn⟩ ≤ np_average x (km_weights under over k) :=
        le_np_average x _ _ hn (km_weights_pos under over k hu ho) hx0
      obtain ⟨k1, hk1, -, -⟩ :=
        find_k_succeeds (np_average x (km_weights under over k)) x hn hc1
      have hknext : km_next hn under over x k = k1 := by
        unfold km_next
        rw [hk1]
        rfl
      have hk1k : k1 = k := by rw [← hknext, hfix]
      have hfc1 : find_c_minute (np_average x (km_weights under over k))
          under over x = some (np_average x (km_weights under over k)) := by
        unfold find_c_minute
        rw [hk1, hk1k]
        rfl
      rw [find_y_loop_step under over x 0 _ _ hfc1, if_pos (by
        simp [machine_eps_nonneg])]
      exact ⟨_, rfl⟩
  | succ t ih =>
    intro c hc hfix
    obtain ⟨k, hk, -, -⟩ := find_k_succeeds c x hn hc
    have hkd : (find_k c x).getD ⟨0, hn⟩ = k := by rw [hk]; rfl
    rw [hkd] at hfix
    have hfc : find_c_minute c under over x =
        some (np_average x (km_weights under over k)) := by
      unfold find_c_minute
      rw [hk]
      rfl
    rw [show t + 1 + 2 = (t + 2) + 1 from rfl,
      find_y_loop_step under over x (t + 2) c _ hfc]
    by_cases hif : |np_average x (km_weights under over k) - c| ≤ machine_eps
    · rw [if_pos hif]
      exact ⟨_, rfl⟩
    · rw [if_neg hif]
      have hc1 : x ⟨0, hn⟩ ≤ np_average x (km_weights under over k) :=
        le_np_average x _ _ hn (km_weights_pos under over k hu ho) hx0
      apply ih _ hc1
      obtain ⟨k1, hk1, -, -⟩ :=
        find_k_succeeds (np_average x (km_weights under over k)) x hn hc1
      have hknext : km_next hn under over x k = k1 := by
        unfold km_next
        rw [hk1]
        rfl
      have hkd1 : (find_k (np_average x (km_weights under over k)) x).getD
          ⟨0, hn⟩ = k1 := by rw [hk1]; rfl
      rw [hkd1, ← hknext, ← Function.iterate_succ_apply,
        ← Function.iterate_succ_apply]
      exact hfix

/-- More fuel preserves a successful `__find_y` loop result. -/
theorem find_y_loop_mono {n : ℕ} (under over x : Fin n → ℚ) :
    ∀ (f1 f2 : ℕ) (c v : ℚ), f1 ≤ f2 →
      find_y_loop under over x f1 c = some v →
      find_y_loop under over x f2 c = some v := by
  intro f1
  induction f1 with
  | zero =>
    intro f2 c v hle h
    rw [find_y_loop] at h
    exact absurd h (by simp)
  | succ f ih =>
    intro f2 c v hle h
    obtain ⟨f2b, rfl⟩ : ∃ f2b, f2 = f2b + 1 := ⟨f2 - 1, by omega⟩
    cases hfc : find_c_minute c under over x with
    | none =>
      rw [find_y_loop_none under over x f c hfc] at h
      exact absurd h (by simp)
    | some c1 =>
      rw [find_y_loop_step under over x f c c1 hfc] at h
      rw [find_y_loop_step under over x f2b c c1 hfc]
      by_cases hif : |c1 - c| ≤ machine_eps
      · rw [if_pos hif] at h ⊢
        exact h
      · rw [if_neg hif] at h ⊢
        exact ih f2b c1 v (by omega) h

/-- C2: for every nonempty ascending domain and (biased-)positive weight
arrays, the `__find_y` fixed-point loop terminates — `n + 2` evaluations of
`__find_c_minute` always suffice — and the exit happens exactly through the
`|c_minute - c_prim| ≤ np.finfo(float).eps` test, with no iteration cap:
any larger fuel returns the identical value, so the modelling fuel is not a
cap and the source's uncapped loop reaches the same exit. -/
theorem find_y_terminates {n : ℕ} (under over x thetas : Fin n → ℚ)
    (fuel : ℕ) (hn : 0 < n) (hx : Monotone x) (hu : ∀ i, 0 ≤ under i)
    (ho : ∀ i, 0 ≤ over i) (hth : ∀ i, 0 < thetas i)
    (hfuel : n + 2 ≤ fuel) :
    (find_y fuel under over x thetas).isSome = true ∧
    ∀ fuel2, fuel ≤ fuel2 →
      find_y fuel2 under over x thetas = find_y fuel under over x thetas := by
  have hx0 : ∀ i, x ⟨0, hn⟩ ≤ x i := fun i => hx (by simp [Fin.le_def])
  have hc0 : x ⟨0, hn⟩ ≤ np_average x thetas :=
    le_np_average x thetas _ hn hth hx0
  obtain ⟨t, htn, hfix⟩ := km_next_reaches_fixed hn under over x hx hu ho
    ((find_k (np_average x thetas) x).getD ⟨0, hn⟩)
  obtain ⟨v, hv⟩ :=
    find_y_loop_succeeds hn under over x hx hu ho t (np_average x thetas)
      hc0 hfix
  have hv2 : find_y_loop under over x fuel (np_average x thetas) = some v :=
    find_y_loop_mono under over x (t + 2) fuel _ v (by omega) hv
  constructor
  · unfold find_y
    rw [hv2]
    rfl
  · intro fuel2 hf2
    unfold find_y
    rw [hv2, find_y_loop_mono under over x fuel fuel2 _ v hf2 hv2]

/-- Witness for C2 on the one-point domain: three units of fuel already
return a value. -/
theorem find_y_terminates_witness :
    (find_y 3 (fun _ : Fin 1 => (0 : ℚ)) (fun _ => 0) (fun _ => 0)
      (fun _ => 1)).isSome = true :=
  (find_y_terminates (fun _ => 0) (fun _ => 0) (fun _ => 0) (fun _ => 1) 3
    one_pos (by decide) (fun _ => le_refl 0) (fun _ => le_refl 0)
    (fun _ => one_pos) (by norm_num)).1

/-- Union of a single membership array is the array itself (the source
wraps a bare array into a one-element collection). -/
theorem membership_func_union_singleton {n : ℕ} (m : Fin n → ℚ) :
    membership_func_union [m] = m := rfl

/-- Degenerate `__find_y`: when under and over arrays coincide, the
reweighting is independent of the switch index, so the first recompute
reproduces the initial candidate exactly and the loop exits at once. -/
theorem find_y_degenerate {n : ℕ} (fuel : ℕ) (m x : Fin n → ℚ)
    (hn : 0 < n) (hx : Monotone x) (hm : ∀ i, 0 ≤ m i) (hfuel : 1 ≤ fuel) :
    find_y fuel m m x (fun i => (m i + m i) / 2 + eps_bias) =
      some (np_average x (fun i => m i + eps_bias)) := by
  obtain ⟨f, rfl⟩ : ∃ f, fuel = f + 1 := ⟨fuel - 1, by omega⟩
  unfold find_y
  have hθeq : np_average x (fun i => (m i + m i) / 2 + eps_bias) =
      np_average x (fun i => m i + eps_bias) := by
    congr 1
    funext i
    ring
  rw [hθeq]
  have hwpos : ∀ i, 0 < m i + eps_bias :=
    fun i => by linarith [hm i, eps_bias_pos]
  have hx0 : ∀ i, x ⟨0, hn⟩ ≤ x i := fun i => hx (by simp [Fin.le_def])
  have hc0 : x ⟨0, hn⟩ ≤ np_average x (fun i => m i + eps_bias) :=
    le_np_average x _ _ hn hwpos hx0
  obtain ⟨k, hk, -, -⟩ := find_k_succeeds _ x hn hc0
  have hfc : find_c_minute (np_average x (fun i => m i + eps_bias)) m m x =
      some (np_average x (fun i => m i + eps_bias)) := by
    unfold find_c_minute
    rw [hk]
    show some (np_average x (km_weights m m k)) = _
    congr 1
    congr 1
    funext i
    unfold km_weights
    rw [ite_self]
  rw [find_y_loop_step m m x f _ _ hfc, if_pos (by simp [machine_eps_nonneg])]

/-- Exact value of `karnik_mendel` in the degenerate Type-1 case: with
`lmfs = umfs = [m]` both sides converge immediately to the
`(m + 1e-10)`-weighted average of the domain. -/
theorem karnik_mendel_degenerate_eval {n : ℕ} (fuel : ℕ) (m x : Fin n → ℚ)
    (hn : 0 < n) (hx : Monotone x) (hm : ∀ i, 0 ≤ m i) (hfuel : 1 ≤ fuel) :
    karnik_mendel fuel [m] [m] x =
      some (np_average x (fun i => m i + eps_bias)) := by
  have hfy := find_y_degenerate fuel m x hn hx hm hfuel
  unfold karnik_mendel
  simp only [membership_func_union_singleton, hfy]
  congr 1
  ring

/-- Quantified effect of the `1e-10` bias on a weighted average: adding the
bias to every weight moves the average by at most
`n * 1e-10 * (domain range) / (sum of the raw weights)`. -/
theorem np_average_bias_close {n : ℕ} (m x : Fin n → ℚ) (hn : 0 < n)
    (hx : Monotone x) (hm : ∀ i, 0 ≤ m i) (hms : 0 < ∑ i, m i) :
    |np_average x (fun i => m i + eps_bias) - np_average x m| ≤
      n * eps_bias * (x ⟨n - 1, by omega⟩ - x ⟨0, hn⟩) / (∑ i, m i) := by
  have hxlo : ∀ i, x ⟨0, hn⟩ ≤ x i := fun i => hx (by simp [Fin.le_def])
  have hxhi : ∀ i, x i ≤ x ⟨n - 1, by omega⟩ := by
    intro i
    apply hx
    rw [Fin.le_def]
    show i.val ≤ n - 1
    have := i.isLt
    omega
  have hR : (0 : ℚ) ≤ x ⟨n - 1, by omega⟩ - x ⟨0, hn⟩ := by
    have := hxhi ⟨0, hn⟩
    linarith
  have hεn : (0 : ℚ) ≤ (n : ℚ) * eps_bias :=
    mul_nonneg (Nat.cast_nonneg n) (le_of_lt eps_bias_pos)
  have hDpos : 0 < (∑ i, m i) + (n : ℚ) * eps_bias := by linarith
  have hN : ∑ i, (m i + eps_bias) * x i =
      (∑ i, m i * x i) + eps_bias * (∑ i, x i) := by
    simp only [add_mul]
    rw [Finset.sum_add_distrib, ← Finset.mul_sum]
  have hD : ∑ i, (m i + eps_bias) = (∑ i, m i) + (n : ℚ) * eps_bias := by
    rw [Finset.sum_add_distrib, Finset.sum_const, Finset.card_univ,
      Fintype.card_fin, nsmul_eq_mul]
  have hdiff : np_average x (fun i => m i + eps_bias) - np_average x m =
      eps_bias * ((∑ i, m i) * (∑ i, x i) - n * (∑ i, m i * x i)) /
        ((∑ i, m i) * ((∑ i, m i) + n * eps_bias)) := by
    unfold np_average
    rw [hN, hD]
    rw [div_sub_div _ _ (ne_of_gt hDpos) (ne_of_gt hms),
      div_eq_div_iff (mul_pos hDpos hms).ne' (mul_pos hms hDpos).ne']
    ring
  have he2 : ∀ j : Fin n, (∑ i, x i) - (n : ℚ) * x j = ∑ i, (x i - x j) := by
    intro j
    rw [Finset.sum_sub_distrib, Finset.sum_const, Finset.card_univ,
      Fintype.card_fin, nsmul_eq_mul]
  have hinner : ∀ j : Fin n, |(∑ i, x i) - (n : ℚ) * x j| ≤
      (n : ℚ) * (x ⟨n - 1, by omega⟩ - x ⟨0, hn⟩) := by
    intro j
    rw [he2 j]
    calc |∑ i, (x i - x j)| ≤ ∑ i, |x i - x j| :=
          Finset.abs_sum_le_sum_abs _ _
      _ ≤ ∑ _i : Fin n, (x ⟨n - 1, by omega⟩ - x ⟨0, hn⟩) := by
          apply Finset.sum_le_sum
          intro i _
          rw [abs_le]
          constructor
          · have := hxhi j
            have := hxlo i
            linarith
          · have := hxhi i
            have := hxlo j
            linarith
      _ = (n : ℚ) * (x ⟨n - 1, by omega⟩ - x ⟨0, hn⟩) := by
          rw [Finset.sum_const, Finset.card_univ, Fintype.card_fin,
            nsmul_eq_mul]
  have he : ∑ j, m j * ((∑ i, x i) - (n : ℚ) * x j) =
      (∑ i, m i) * (∑ i, x i) - n * (∑ i, m i * x i) := by
    have hterm : ∀ j : Fin n, m j * ((∑ i, x i) - (n : ℚ) * x j) =
        m j * (∑ i, x i) - (n : ℚ) * (m j * x j) := fun j => by ring
    rw [Finset.sum_congr rfl (fun j _ => hterm j), Finset.sum_sub_distrib,
      ← Finset.sum_mul, ← Finset.mul_sum]
  have hbound : |(∑ i, m i) * (∑ i, x i) - n * (∑ i, m i * x i)| ≤
      (n : ℚ) * (∑ i, m i) * (x ⟨n - 1, by omega⟩ - x ⟨0, hn⟩) := by
    rw [← he]
    calc |∑ j, m j * ((∑ i, x i) - (n : ℚ) * x j)|
        ≤ ∑ j, |m j * ((∑ i, x i) - (n : ℚ) * x j)| :=
          Finset.abs_sum_le_sum_abs _ _
      _ ≤ ∑ j, m j * ((n : ℚ) * (x ⟨n - 1, by omega⟩ - x ⟨0, hn⟩)) := by
          apply Finset.sum_le_sum
          intro j _
          rw [abs_mul, abs_of_nonneg (hm j)]
          exact mul_le_mul_of_nonneg_left (hinner j) (hm j)
      _ = (n : ℚ) * (∑ i, m i) * (x ⟨n - 1, by omega⟩ - x ⟨0, hn⟩) := by
          rw [← Finset.sum_mul]
          ring
  rw [hdiff, abs_div, abs_mul, abs_of_pos eps_bias_pos,
    abs_of_pos (mul_pos hms hDpos)]
  rw [div_le_div_iff (mul_pos hms hDpos) hms]
  have hstep : eps_bias * |(∑ i, m i) * (∑ i, x i) - n * (∑ i, m i * x i)| ≤
      eps_bias * ((n : ℚ) * (∑ i, m i) *
        (x ⟨n - 1, by omega⟩ - x ⟨0, hn⟩)) :=
    mul_le_mul_of_nonneg_left hbound (le_of_lt eps_bias_pos)
  have hexp : (n : ℚ) * eps_bias * (x ⟨n - 1, by omega⟩ - x ⟨0, hn⟩) *
      ((∑ i, m i) * ((∑ i, m i) + n * eps_bias)) =
      (eps_bias * ((n : ℚ) * (∑ i, m i) *
        (x ⟨n - 1, by omega⟩ - x ⟨0, hn⟩))) * ((∑ i, m i) + n * eps_bias) := by
    ring
  nlinarith [mul_le_mul_of_nonneg_right hstep (le_of_lt hDpos),
    mul_nonneg (mul_nonneg hεn hR) (le_of_lt hms),
    mul_nonneg (mul_nonneg hεn hR) hεn]

/-- C3: in the degenerate Type-1 case `lmfs = umfs = [m]` (nonempty
ascending domain, nonnegative not-all-zero membership), `karnik_mendel`
returns a value within numeric tolerance of
`center_of_gravity(domain, [m])`: the two agree up to the tiny
`n * 1e-10 * (domain range) / (sum of memberships)` displacement caused by
the `1e-10` weight bias. -/
theorem karnik_mendel_equals_cog {n : ℕ} (fuel : ℕ) (m x : Fin n → ℚ)
    (hn : 0 < n) (hx : Monotone x) (hm : ∀ i, 0 ≤ m i) (hms : 0 < ∑ i, m i)
    (hfuel : 1 ≤ fuel) :
    ∃ y, karnik_mendel fuel [m] [m] x = some y ∧
      |y - center_of_gravity x [m]| ≤
        n * eps_bias * (x ⟨n - 1, by omega⟩ - x ⟨0, hn⟩) / (∑ i, m i) := by
  refine ⟨np_average x (fun i => m i + eps_bias),
    karnik_mendel_degenerate_eval fuel m x hn hx hm hfuel, ?_⟩
  unfold center_of_gravity
  rw [membership_func_union_singleton]
  exact np_average_bias_close m x hn hx hm hms

/-- Witness for C3 on the domain (0, 1) with unit memberships: the result
is within `1e-10` of the center of gravity. -/
theorem karnik_mendel_equals_cog_witness :
    ∃ y, karnik_mendel 1 [fun _ : Fin 2 => (1 : ℚ)] [fun _ : Fin 2 => (1 : ℚ)]
        (fun i : Fin 2 => if i.val = 0 then 0 else 1) = some y ∧
      |y - center_of_gravity (fun i : Fin 2 => if i.val = 0 then 0 else 1)
        [fun _ : Fin 2 => (1 : ℚ)]| ≤ eps_bias := by
  obtain ⟨y, h1, h2⟩ := karnik_mendel_equals_cog 1 (fun _ => 1)
    (fun i : Fin 2 => if i.val = 0 then 0 else 1) (by norm_num) (by decide)
    (fun i => by norm_num) (by simp) (le_refl 1)
  refine ⟨y, h1, le_trans h2 ?_⟩
  norm_num

/-- The interpolation loop finds the first bracketing pair: if the
previous point is at or below `x` and some later point is at or beyond
`x`, the scan returns the interpolation at two adjacent points that
bracket `x`. -/
theorem bracket_scan_finds {x : ℚ} :
    ∀ (l : List (ℚ × ℚ)) (p : ℚ × ℚ), p.1 ≤ x → (∃ q ∈ l, x ≤ q.1) →
      ∃ a b l1 l2, p :: l = l1 ++ a :: b :: l2 ∧ a.1 ≤ x ∧ x ≤ b.1 ∧
        bracket_scan x p l = interpolate x a b := by
  intro l
  induction l with
  | nil =>
    intro p hp h
    simp at h
  | cons q rest ih =>
    intro p hp h
    by_cases hq : x ≤ q.1
    · refine ⟨p, q, [], rest, rfl, hp, hq, ?_⟩
      rw [bracket_scan, if_pos hq]
    · have hq1 : q.1 ≤ x := le_of_not_le hq
      obtain ⟨r, hr, hxr⟩ := h
      have hr2 : r ∈ rest := by
        rcases List.mem_cons.mp hr with rfl | h2
        · exact absurd hxr hq
        · exact h2
      obtain ⟨a, b, l1, l2, heq, ha, hb, hval⟩ := ih q hq1 ⟨r, hr2, hxr⟩
      refine ⟨a, b, p :: l1, l2, ?_, ha, hb, ?_⟩
      · rw [List.cons_append, ← heq]
      · rw [bracket_scan, if_neg hq]
        exact hval

/-- The interpolation loop returns 0 when every scanned point lies
strictly left of `x` (no bracket exists). -/
theorem bracket_scan_zero {x : ℚ} :
    ∀ (l : List (ℚ × ℚ)) (p : ℚ × ℚ), (∀ q ∈ l, q.1 < x) →
      bracket_scan x p l = 0 := by
  intro l
  induction l with
  | nil =>
    intro p _
    rfl
  | cons q rest ih =>
    intro p h
    rw [bracket_scan, if_neg (not_le.mpr (h q (List.mem_cons_self q rest)))]
    exact ih q (fun r hr => h r (List.mem_cons_of_mem q hr))

/-- C9: `calculate_membership` answers a single point's value exactly at
its abscissa (0 elsewhere); on a multi-point set it interpolates between
two adjacent bracketing points by horizontal proportion whenever `x` is at
or above the first abscissa and some point reaches `x`; when every point
lies strictly below `x`, or `x` lies strictly below the first point, it
returns 0. -/
theorem calculate_membership_spec :
    (∀ (x : ℚ) (p : ℚ × ℚ),
      calculate_membership x [p] = if x = p.1 then p.2 else 0) ∧
    (∀ (x : ℚ) (p : ℚ × ℚ) (rest : List (ℚ × ℚ)), p.1 ≤ x →
      (∃ q ∈ rest, x ≤ q.1) →
      ∃ a b l1 l2, p :: rest = l1 ++ a :: b :: l2 ∧ a.1 ≤ x ∧ x ≤ b.1 ∧
        calculate_membership x (p :: rest) = interpolate x a b) ∧
    (∀ (x : ℚ) (pts : List (ℚ × ℚ)), (∀ q ∈ pts, q.1 < x) →
      calculate_membership x pts = 0) ∧
    (∀ (x : ℚ) (p : ℚ × ℚ) (rest : List (ℚ × ℚ)), x < p.1 →
      calculate_membership x (p :: rest) = 0) := by
  refine ⟨fun x p => rfl, ?_, ?_, ?_⟩
  · intro x p rest hp h
    cases rest with
    | nil => simp at h
    | cons r rest2 =>
      obtain ⟨a, b, l1, l2, heq, ha, hb, hval⟩ :=
        bracket_scan_finds (r :: rest2) p hp h
      refine ⟨a, b, l1, l2, heq, ha, hb, ?_⟩
      show (if p.1 ≤ x then bracket_scan x p (r :: rest2) else 0) =
        interpolate x a b
      rw [if_pos hp]
      exact hval
  · intro x pts h
    cases pts with
    | nil => rfl
    | cons p rest =>
      cases rest with
      | nil =>
        show (if x = p.1 then p.2 else 0) = 0
        rw [if_neg]
        intro he
        exact absurd (he ▸ h p (List.mem_cons_self p [])) (lt_irrefl x)
      | cons r rest2 =>
        show (if p.1 ≤ x then bracket_scan x p (r :: rest2) else 0) = 0
        rw [if_pos (le_of_lt (h p (List.mem_cons_self p _)))]
        exact bracket_scan_zero (r :: rest2) p
          (fun q hq => h q (List.mem_cons_of_mem p hq))
  · intro x p rest hx
    cases rest with
    | nil =>
      show (if x = p.1 then p.2 else 0) = 0
      rw [if_neg (ne_of_lt hx)]
    | cons r rest2 =>
      show (if p.1 ≤ x then bracket_scan x p (r :: rest2) else 0) = 0
      rw [if_neg (not_le.mpr hx)]

/-- Witness for C9: exact single-point hit, an interior interpolation, a
point above the whole set, and a point below it. -/
theorem calculate_membership_spec_witness :
    calculate_membership 3 [((3 : ℚ), 7)] = 7 ∧
    (∃ a b l1 l2,
      [((0 : ℚ), (0 : ℚ)), (2, 4)] = l1 ++ a :: b :: l2 ∧ a.1 ≤ 1 ∧
      (1 : ℚ) ≤ b.1 ∧
      calculate_membership 1 [((0 : ℚ), (0 : ℚ)), (2, 4)] =
        interpolate 1 a b) ∧
    calculate_membership 5 [((0 : ℚ), 1), (2, 3)] = 0 ∧
    calculate_membership (-1) [((0 : ℚ), 1), (2, 3)] = 0 := by
  obtain ⟨h1, h2, h3, h4⟩ := calculate_membership_spec
  refine ⟨?_, ?_, ?_, ?_⟩
  · rw [h1 3 (3, 7)]
    norm_num
  · exact h2 1 (0, 0) [(2, 4)] (by norm_num)
      ⟨(2, 4), List.mem_singleton_self _, by norm_num⟩
  · refine h3 5 _ ?_
    intro q hq
    rcases List.mem_cons.mp hq with rfl | hq2
    · norm_num
    · rw [List.mem_singleton.mp hq2]
      norm_num
  · exact h4 (-1) (0, 1) [(2, 3)] (by norm_num)

/-- Sorting the (output, firing) pairs with the key `decide (a.1 ≤ b.1)`
produces a list that is pairwise nondecreasing in the output component. -/
theorem mergeSort_by_fst_sorted {D : Type} (l : List (ℚ × D)) :
    List.Pairwise (fun a b : ℚ × D => a.1 ≤ b.1)
      (l.mergeSort (fun a b => decide (a.1 ≤ b.1))) := by
  have h := @List.sorted_mergeSort (ℚ × D)
    (fun a b => decide (a.1 ≤ b.1))
    (fun a b c hab hbc => by
      simp only [decide_eq_true_eq] at hab hbc ⊢
      exact le_trans hab hbc)
    (fun a b => by
      simp only [Bool.or_eq_true, decide_eq_true_eq]
      exact le_total a.1 b.1) l
  exact h.imp (fun hab => by simpa using hab)

/-- A cache hit of `infer_single` returns the stored conclusion with the
cache untouched. -/
theorem infer_single_hit {F D : Type} (d : List D → List ℚ → ℚ)
    (rb : List (TSRule F D)) (cache : List (List ℚ × ℚ)) (f : F)
    (m : List ℚ) (v : ℚ)
    (hv : cache_lookup cache (get_input_tuple rb m) = some v) :
    infer_single d rb cache f m = (v, cache) := by
  simp only [infer_single]
  rw [hv]

/-- After any `infer_single` call, its own input tuple is cached and maps
to the conclusion just returned. -/
theorem infer_single_lookup {F D : Type} (d : List D → List ℚ → ℚ)
    (rb : List (TSRule F D)) (cache : List (List ℚ × ℚ)) (f : F)
    (m : List ℚ) :
    cache_lookup (infer_single d rb cache f m).2 (get_input_tuple rb m) =
      some (infer_single d rb cache f m).1 := by
  simp only [infer_single]
  cases hl : cache_lookup cache (get_input_tuple rb m) with
  | some v => exact hl
  | none => simp [cache_lookup]

/-- C5: the per-sample cache key of `TakagiSugenoInferenceSystem.infer` is
the measured values followed by every rule's consequent parameters
flattened in rule-base order; a cached key returns the stored conclusion
for any rule base with the same parameters (no consequent output and no
antecedent firing is evaluated: the result does not depend on them, nor on
the defuzzification method); on a miss the (output, firing) pairs are
sorted by output ascending before the defuzzification method is applied
and the conclusion is stored under the key. -/
theorem infer_single_cache_and_sort {F D : Type}
    (d : List D → List ℚ → ℚ) (rule_base : List (TSRule F D))
    (cache : List (List ℚ × ℚ)) (f : F) (m : List ℚ) :
    get_input_tuple rule_base m =
      m ++ (rule_base.map (fun r => r.function_parameters)).flatten ∧
    (∀ v, cache_lookup cache (get_input_tuple rule_base m) = some v →
      ∀ (d2 : List D → List ℚ → ℚ) (rb2 : List (TSRule F D)) (f2 : F)
        (m2 : List ℚ),
        rb2.map (fun r => r.function_parameters) =
          rule_base.map (fun r => r.function_parameters) →
        m2 = m →
        infer_single d2 rb2 cache f2 m2 = (v, cache)) ∧
    (cache_lookup cache (get_input_tuple rule_base m) = none →
      List.Pairwise (fun a b => a.1 ≤ b.1)
        ((rule_base.map (fun r =>
          (r.consequent_output m, r.antecedent_fire f))).mergeSort
            (fun a b => decide (a.1 ≤ b.1))) ∧
      ((rule_base.map (fun r =>
        (r.consequent_output m, r.antecedent_fire f))).mergeSort
          (fun a b => decide (a.1 ≤ b.1))).Perm
        (rule_base.map (fun r =>
          (r.consequent_output m, r.antecedent_fire f))) ∧
      infer_single d rule_base cache f m =
        (d (((rule_base.map (fun r =>
            (r.consequent_output m, r.antecedent_fire f))).mergeSort
              (fun a b => decide (a.1 ≤ b.1))).map Prod.snd)
           (((rule_base.map (fun r =>
            (r.consequent_output m, r.antecedent_fire f))).mergeSort
              (fun a b => decide (a.1 ≤ b.1))).map Prod.fst),
         (get_input_tuple rule_base m,
          d (((rule_base.map (fun r =>
            (r.consequent_output m, r.antecedent_fire f))).mergeSort
              (fun a b => decide (a.1 ≤ b.1))).map Prod.snd)
           (((rule_base.map (fun r =>
            (r.consequent_output m, r.antecedent_fire f))).mergeSort
              (fun a b => decide (a.1 ≤ b.1))).map Prod.fst)) :: cache)) := by
  refine ⟨rfl, ?_, ?_⟩
  · intro v hv d2 rb2 f2 m2 hparams hm
    have hk : get_input_tuple rb2 m2 = get_input_tuple rule_base m := by
      unfold get_input_tuple
      rw [hparams, hm]
    exact infer_single_hit d2 rb2 cache f2 m2 v (hk ▸ hv)
  · intro hnone
    refine ⟨mergeSort_by_fst_sorted _, List.mergeSort_perm _ _, ?_⟩
    simp only [infer_single]
    rw [hnone]

/-- Witness for C5: a hit returns the stored value 9 even for a rule base
with a different consequent output, and a miss on one rule evaluates,
"sorts", defuzzifies to 7 and stores the key `[2, 5]`. -/
theorem infer_single_cache_and_sort_witness :
    infer_single (fun _ o => o.foldr (· + ·) 0)
      ([⟨[5], fun _ => (8 : ℚ), fun _ => (0 : ℚ)⟩] : List (TSRule Unit ℚ))
      [([2, 5], (9 : ℚ))] () [2] = (9, [([2, 5], 9)]) ∧
    infer_single (fun _ o => o.foldr (· + ·) 0)
      ([⟨[5], fun _ => (7 : ℚ), fun _ => (1 : ℚ)⟩] : List (TSRule Unit ℚ))
      [] () [2] = (7, [([2, 5], 7)]) := by
  constructor
  · exact (infer_single_cache_and_sort (fun _ o => o.foldr (· + ·) 0)
      ([⟨[5], fun _ => (7 : ℚ), fun _ => (1 : ℚ)⟩] : List (TSRule Unit ℚ))
      [([2, 5], (9 : ℚ))] () [2]).2.1 9 rfl
      (fun _ o => o.foldr (· + ·) 0)
      [⟨[5], fun _ => (8 : ℚ), fun _ => (0 : ℚ)⟩] () [2] rfl rfl
  · obtain ⟨-, -, heq⟩ := (infer_single_cache_and_sort
      (fun _ o => o.foldr (· + ·) 0)
      ([⟨[5], fun _ => (7 : ℚ), fun _ => (1 : ℚ)⟩] : List (TSRule Unit ℚ))
      [] () [2]).2.2 rfl
    rw [heq]
    simp [get_input_tuple, List.mergeSort_singleton]

/-- C6 counterexample: `__cache = {}` is a class attribute of
`TakagiSugenoInferenceSystem`, one dict shared by every instance. A second
inference system whose rule happens to produce the same cache key (same
measured values, same flattened consequent parameters) but a different
consequent output observes the first instance's stored conclusion 10
instead of computing its own value 20. -/
theorem ts_cache_cross_instance_counterexample :
    (infer (fun _ o => o.foldr (· + ·) 0)
      ([⟨[1], fun _ => (20 : ℚ), fun _ => (1 : ℚ)⟩] : List (TSRule Unit ℚ))
      (infer (fun _ o => o.foldr (· + ·) 0)
        ([⟨[1], fun _ => (10 : ℚ), fun _ => (1 : ℚ)⟩] : List (TSRule Unit ℚ))
        [] [((), [0])]).2
      [((), [0])]).1 = [10] ∧
    (infer (fun _ o => o.foldr (· + ·) 0)
      ([⟨[1], fun _ => (20 : ℚ), fun _ => (1 : ℚ)⟩] : List (TSRule Unit ℚ))
      [] [((), [0])]).1 = [20] ∧
    (10 : ℚ) ≠ 20 := by
  refine ⟨?_, ?_, by norm_num⟩
  · simp [infer, infer_single, get_input_tuple, cache_lookup,
      List.mergeSort_singleton]
  · simp [infer, infer_single, get_input_tuple, cache_lookup,
      List.mergeSort_singleton]

/-- C6 amended: the memoization cache lives at class scope and is shared
by every `TakagiSugenoInferenceSystem` instance; after any instance's
per-sample inference, any other instance whose input tuple coincides gets
that stored conclusion as a cache hit, and the cache is the only state
`infer` reads or writes besides its inputs. -/
theorem ts_cache_shared_across_instances {F D : Type}
    (d1 d2 : List D → List ℚ → ℚ) (rb1 rb2 : List (TSRule F D))
    (cache : List (List ℚ × ℚ)) (f1 f2 : F) (m1 m2 : List ℚ)
    (hkey : get_input_tuple rb2 m2 = get_input_tuple rb1 m1) :
    infer_single d2 rb2 (infer_single d1 rb1 cache f1 m1).2 f2 m2 =
      ((infer_single d1 rb1 cache f1 m1).1,
       (infer_single d1 rb1 cache f1 m1).2) := by
  have hl := infer_single_lookup d1 rb1 cache f1 m1
  exact infer_single_hit d2 rb2 _ f2 m2 _ (by rw [hkey]; exact hl)

/-- Witness for the amended C6: the second instance's differing consequent
(20 instead of 10) is ignored on the shared-cache hit. -/
theorem ts_cache_shared_across_instances_witness :
    infer_single (fun _ o => o.foldr (· + ·) 0)
      ([⟨[1], fun _ => (20 : ℚ), fun _ => (1 : ℚ)⟩] : List (TSRule Unit ℚ))
      (infer_single (fun _ o => o.foldr (· + ·) 0)
        ([⟨[1], fun _ => (10 : ℚ), fun _ => (1 : ℚ)⟩] : List (TSRule Unit ℚ))
        [] () [0]).2 () [0] =
      ((infer_single (fun _ o => o.foldr (· + ·) 0)
        ([⟨[1], fun _ => (10 : ℚ), fun _ => (1 : ℚ)⟩] : List (TSRule Unit ℚ))
        [] () [0]).1,
       (infer_single (fun _ o => o.foldr (· + ·) 0)
        ([⟨[1], fun _ => (10 : ℚ), fun _ => (1 : ℚ)⟩] : List (TSRule Unit ℚ))
        [] () [0]).2) :=
  ts_cache_shared_across_instances _ _ _ _ [] () () [0] [0] rfl

/-- Folding `max` from an initial value computes the maximum of the
element prepended to the list. -/
theorem foldl_max_elim {α : Type} [LinearOrder α] :
    ∀ (l : List α) (a : α), l.foldl max a = l.max?.elim a (max a) := by
  intro l
  induction l with
  | nil => intro a; rfl
  | cons b t ih =>
    intro a
    rw [List.foldl_cons, ih (max a b), List.max?_cons]
    cases ht : t.max? with
    | none => simp [Option.elim]
    | some z => simp [Option.elim, max_assoc]

/-- The source's union (np.max over the stacked arrays) agrees with the
spec's elementwise maximum on every nonempty list. -/
theorem membership_func_union_eq_spec {n : ℕ} (mfs : List (Fin n → ℚ))
    (h : mfs ≠ []) : membership_func_union mfs = spec_union mfs := by
  cases mfs with
  | nil => exact absurd rfl h
  | cons m rest =>
    funext i
    show rest.foldl (fun acc f => max acc (f i)) (m i) =
      (((m :: rest).map (fun f => f i)).max?).getD 0
    rw [List.map_cons, List.max?_cons, Option.getD_some, ← List.foldl_map]
    exact foldl_max_elim (rest.map (fun f => f i)) (m i)

/-- A left fold that keeps the latest element satisfying a predicate
computes the last element of the filtered list (or the initial
accumulator when nothing satisfies it). -/
theorem foldl_last_filter {α : Type} (p : α → Prop) [DecidablePred p] :
    ∀ (l : List α) (init : Option α),
      l.foldl (fun acc i => if p i then some i else acc) init =
        ((l.filter (fun i => decide (p i))).getLast?).or init := by
  intro l
  induction l with
  | nil => intro init; rfl
  | cons a t ih =>
    intro init
    rw [List.foldl_cons]
    by_cases hp : p a
    · rw [if_pos hp, ih (some a)]
      have hf : (a :: t).filter (fun i => decide (p i)) =
          a :: t.filter (fun i => decide (p i)) := by
        simp [List.filter_cons, hp]
      rw [hf]
      have hcons : ∀ (s : List α) (b : α),
          (b :: s).getLast? = s.getLast?.or (some b) := by
        intro s b
        cases s with
        | nil => rfl
        | cons c s2 =>
          rw [List.getLast?_cons_cons]
          obtain ⟨z, hz⟩ := Option.isSome_iff_exists.mp
            (List.getLast?_isSome.mpr (List.cons_ne_nil c s2))
          rw [hz]
          rfl
      rw [hcons, Option.or_assoc]
      rfl
    · rw [if_neg hp, ih init]
      have hf : (a :: t).filter (fun i => decide (p i)) =
          t.filter (fun i => decide (p i)) := by
        simp [List.filter_cons, hp]
      rw [hf]

/-- The source's `__find_k` (last index of `np.where`) agrees with the
spec's largest-satisfying-index scan. -/
theorem find_k_eq_spec {n : ℕ} (c : ℚ) (x : Fin n → ℚ) :
    find_k c x = spec_find_k c x := by
  unfold find_k spec_find_k
  rw [foldl_last_filter (fun i => x i ≤ c) (List.finRange n) none,
    Option.or_none]

/-- The spec's weighted average (factors in the spec's order) agrees with
`np.average`. -/
theorem spec_wavg_eq {n : ℕ} (x w : Fin n → ℚ) :
    spec_wavg x w = np_average x w := by
  unfold spec_wavg np_average
  congr 1
  exact Finset.sum_congr rfl (fun i _ => mul_comm _ _)

/-- The spec's reweighting agrees with the weight array assembled in
`__find_c_minute`. -/
theorem spec_reweight_eq {n : ℕ} (under over : Fin n → ℚ) (k : Fin n) :
    spec_reweight under over k = km_weights under over k := by
  funext i
  unfold spec_reweight km_weights eps_bias
  by_cases h : (i : ℕ) ≤ (k : ℕ)
  · rw [if_pos h, if_pos (Fin.le_def.mpr h)]
  · rw [if_neg h, if_neg (fun hle => h (Fin.le_def.mp hle))]

/-- The spec's fixed-point iteration agrees with the `__find_y` loop at
every fuel and candidate. -/
theorem spec_iterate_eq {n : ℕ} (under over x : Fin n → ℚ) :
    ∀ (fuel : ℕ) (c : ℚ),
      spec_iterate under over x fuel c = find_y_loop under over x fuel c := by
  intro fuel
  induction fuel with
  | zero => intro c; rfl
  | succ f ih =>
    intro c
    rw [spec_iterate, find_y_loop]
    have hrc : spec_recompute c under over x = find_c_minute c under over x := by
      unfold spec_recompute find_c_minute
      rw [find_k_eq_spec]
      congr 1
      funext k
      rw [spec_wavg_eq, spec_reweight_eq]
    rw [hrc]
    cases find_c_minute c under over x with
    | none => rfl
    | some c2 =>
      show (if |c2 - c| ≤ 1 / 2 ^ 52 then some c2
          else spec_iterate under over x f c2) =
        if |c2 - c| ≤ machine_eps then some c2 else find_y_loop under over x f c2
      rw [show (1 / 2 ^ 52 : ℚ) = machine_eps from rfl]
      by_cases hif : |c2 - c| ≤ machine_eps
      · rw [if_pos hif, if_pos hif]
      · rw [if_neg hif, if_neg hif, ih c2]

/-- C1: `karnik_mendel` refines the spec's iteration word for word: the
biased `thetas` from the two unions, the thetas-weighted starting
candidate, the largest-index switch point, the under/over reweighting with
`y_l` using the upper union below the switch and the lower union above it
(`y_r` swapped), iteration to the machine-epsilon fixed point, and the
final `(y_l + y_r) / 2`. -/
theorem karnik_mendel_refines_spec {n : ℕ} (fuel : ℕ)
    (lmfs umfs : List (Fin n → ℚ)) (domain : Fin n → ℚ)
    (hl : lmfs ≠ []) (hu : umfs ≠ []) :
    karnik_mendel fuel lmfs umfs domain =
      spec_karnik_mendel fuel lmfs umfs domain := by
  unfold karnik_mendel spec_karnik_mendel
  simp only []
  rw [membership_func_union_eq_spec lmfs hl,
    membership_func_union_eq_spec umfs hu,
    show (1 / 10 ^ 10 : ℚ) = eps_bias from rfl]
  have hfy : ∀ u o : Fin n → ℚ,
      find_y fuel u o domain (fun i =>
        (spec_union lmfs i + spec_union umfs i) / 2 + eps_bias) =
      spec_iterate u o domain fuel (spec_wavg domain (fun i =>
        (spec_union lmfs i + spec_union umfs i) / 2 + eps_bias)) := by
    intro u o
    unfold find_y
    rw [spec_wavg_eq, spec_iterate_eq]
  rw [hfy, hfy]

/-- Witness for C1: both renderings agree on a concrete one-point input. -/
theorem karnik_mendel_refines_spec_witness :
    karnik_mendel 2 [fun _ : Fin 1 => (1 : ℚ)] [fun _ : Fin 1 => (1 : ℚ)]
        (fun _ => 0) =
      spec_karnik_mendel 2 [fun _ : Fin 1 => (1 : ℚ)]
        [fun _ : Fin 1 => (1 : ℚ)] (fun _ => 0) :=
  karnik_mendel_refines_spec 2 _ _ _ (List.cons_ne_nil _ _)
    (List.cons_ne_nil _ _)

/-- Length of the modelled `np.arange`: `⌈(stop - start) / step⌉` points. -/
theorem np_arange_length (start stop step : ℚ) :
    (np_arange start stop step).length =
      (Int.ceil ((stop - start) / step)).toNat := by
  unfold np_arange
  rw [List.length_map, List.length_range]

/-- Points of the modelled `np.arange`: the `i`-th point is
`start + i * step` (resolution `step`). -/
theorem np_arange_get (start stop step : ℚ)
    (i : Fin (np_arange start stop step).length) :
    (np_arange start stop step).get i = start + (i.val : ℚ) * step := by
  rw [List.get_eq_getElem]
  unfold np_arange
  rw [List.getElem_map, List.getElem_range]

/-- C4: `takagi_sugeno_karnik_mendel` sorts the (output, lower-firing,
upper-firing) rows by output ascending (a sorted permutation of the
original pairing), and on a nonempty row list its result is exactly
`karnik_mendel` applied over the discretized domain running from the
grid-floor of the minimum sorted output to one step past the grid-floor of
the maximum, at resolution `step` (point `i` sits at `lo + i * step`, with
`⌈(hi - lo)/step⌉` points), with lower/upper membership arrays obtained by
piecewise-linear interpolation of the sorted (output, firing-lower) and
(output, firing-upper) point sets; an empty row list fails. -/
theorem takagi_sugeno_karnik_mendel_spec (fuel : ℕ)
    (firings : List (ℚ × ℚ)) (outputs : List ℚ) (step : ℚ) :
    List.Pairwise (fun a b : ℚ × ℚ × ℚ => a.1 ≤ b.1)
      ((outputs.zip firings).mergeSort (fun a b => decide (a.1 ≤ b.1))) ∧
    ((outputs.zip firings).mergeSort (fun a b => decide (a.1 ≤ b.1))).Perm
      (outputs.zip firings) ∧
    ((outputs.zip firings).mergeSort (fun a b => decide (a.1 ≤ b.1)) = [] →
      takagi_sugeno_karnik_mendel fuel firings outputs step = none) ∧
    (∀ first rest,
      (outputs.zip firings).mergeSort (fun a b => decide (a.1 ≤ b.1)) =
        first :: rest →
      (np_arange (tskm_lo first step)
          (tskm_hi ((first :: rest).getLast (List.cons_ne_nil first rest))
            step) step).length =
        (Int.ceil ((tskm_hi ((first :: rest).getLast
            (List.cons_ne_nil first rest)) step - tskm_lo first step) /
          step)).toNat ∧
      takagi_sugeno_karnik_mendel fuel firings outputs step =
        karnik_mendel fuel
          [fun i : Fin (np_arange (tskm_lo first step)
              (tskm_hi ((first :: rest).getLast
                (List.cons_ne_nil first rest)) step) step).length =>
            calculate_membership (tskm_lo first step + (i.val : ℚ) * step)
              ((first :: rest).map (fun r => (r.1, r.2.1)))]
          [fun i : Fin (np_arange (tskm_lo first step)
              (tskm_hi ((first :: rest).getLast
                (List.cons_ne_nil first rest)) step) step).length =>
            calculate_membership (tskm_lo first step + (i.val : ℚ) * step)
              ((first :: rest).map (fun r => (r.1, r.2.2)))]
          (fun i => tskm_lo first step + (i.val : ℚ) * step)) := by
  refine ⟨mergeSort_by_fst_sorted _, List.mergeSort_perm _ _, ?_, ?_⟩
  · intro hnil
    unfold takagi_sugeno_karnik_mendel
    simp only []
    rw [hnil]
  · intro first rest hsort
    constructor
    · exact np_arange_length _ _ _
    · have h1 : takagi_sugeno_karnik_mendel fuel firings outputs step =
          karnik_mendel fuel
            [fun i : Fin (np_arange (tskm_lo first step)
                (tskm_hi ((first :: rest).getLast
                  (List.cons_ne_nil first rest)) step) step).length =>
              calculate_membership ((np_arange (tskm_lo first step)
                (tskm_hi ((first :: rest).getLast
                  (List.cons_ne_nil first rest)) step) step).get i)
                ((first :: rest).map (fun r => (r.1, r.2.1)))]
            [fun i : Fin (np_arange (tskm_lo first step)
                (tskm_hi ((first :: rest).getLast
                  (List.cons_ne_nil first rest)) step) step).length =>
              calculate_membership ((np_arange (tskm_lo first step)
                (tskm_hi ((first :: rest).getLast
                  (List.cons_ne_nil first rest)) step) step).get i)
                ((first :: rest).map (fun r => (r.1, r.2.2)))]
            (fun i => (np_arange (tskm_lo first step)
                (tskm_hi ((first :: rest).getLast
                  (List.cons_ne_nil first rest)) step) step).get i) := by
        unfold takagi_sugeno_karnik_mendel
        simp only []
        rw [hsort]
        rfl
      rw [h1]
      have hl : (fun i : Fin (np_arange (tskm_lo first step)
          (tskm_hi ((first :: rest).getLast
            (List.cons_ne_nil first rest)) step) step).length =>
          calculate_membership ((np_arange (tskm_lo first step)
            (tskm_hi ((first :: rest).getLast
              (List.cons_ne_nil first rest)) step) step).get i)
            ((first :: rest).map (fun r => (r.1, r.2.1)))) =
          (fun i => calculate_membership
            (tskm_lo first step + (i.val : ℚ) * step)
            ((first :: rest).map (fun r => (r.1, r.2.1)))) :=
        funext fun i => by rw [np_arange_get]
      have hu2 : (fun i : Fin (np_arange (tskm_lo first step)
          (tskm_hi ((first :: rest).getLast
            (List.cons_ne_nil first rest)) step) step).length =>
          calculate_membership ((np_arange (tskm_lo first step)
            (tskm_hi ((first :: rest).getLast
              (List.cons_ne_nil first rest)) step) step).get i)
            ((first :: rest).map (fun r => (r.1, r.2.2)))) =
          (fun i => calculate_membership
            (tskm_lo first step + (i.val : ℚ) * step)
            ((first :: rest).map (fun r => (r.1, r.2.2)))) :=
        funext fun i => by rw [np_arange_get]
      have hg : (fun i : Fin (np_arange (tskm_lo first step)
          (tskm_hi ((first :: rest).getLast
            (List.cons_ne_nil first rest)) step) step).length =>
          (np_arange (tskm_lo first step)
            (tskm_hi ((first :: rest).getLast
              (List.cons_ne_nil first rest)) step) step).get i) =
          (fun i => tskm_lo first step + (i.val : ℚ) * step) :=
        funext fun i => by rw [np_arange_get]
      rw [hl, hu2, hg]

/-- Witness for C4: the empty input fails, and a one-rule input with
output 1 and firing (2, 3) reduces to `karnik_mendel` over the unit-step
domain with the interpolated membership arrays. -/
theorem takagi_sugeno_karnik_mendel_spec_witness :
    takagi_sugeno_karnik_mendel 1 [] [] 1 = none ∧
    takagi_sugeno_karnik_mendel 0 [((2 : ℚ), 3)] [1] 1 =
      karnik_mendel 0
        [fun i : Fin (np_arange (tskm_lo ((1 : ℚ), (2 : ℚ), (3 : ℚ)) 1)
            (tskm_hi ((1 : ℚ), (2 : ℚ), (3 : ℚ)) 1) 1).length =>
          calculate_membership
            (tskm_lo ((1 : ℚ), (2 : ℚ), (3 : ℚ)) 1 + (i.val : ℚ) * 1)
            [((1 : ℚ), (2 : ℚ))]]
        [fun i : Fin (np_arange (tskm_lo ((1 : ℚ), (2 : ℚ), (3 : ℚ)) 1)
            (tskm_hi ((1 : ℚ), (2 : ℚ), (3 : ℚ)) 1) 1).length =>
          calculate_membership
            (tskm_lo ((1 : ℚ), (2 : ℚ), (3 : ℚ)) 1 + (i.val : ℚ) * 1)
            [((1 : ℚ), (3 : ℚ))]]
        (fun i => tskm_lo ((1 : ℚ), (2 : ℚ), (3 : ℚ)) 1 + (i.val : ℚ) * 1) := by
  constructor
  · exact (takagi_sugeno_karnik_mendel_spec 1 [] [] 1).2.2.1
      List.mergeSort_nil
  · exact ((takagi_sugeno_karnik_mendel_spec 0 [((2 : ℚ), 3)] [1] 1).2.2.2
      ((1 : ℚ), (2 : ℚ), (3 : ℚ)) [] (List.mergeSort_singleton _)).2
